import Mathlib

/-!
Shallow embedding of `src/Mongine/analysis_util_01.py`: a family of Bayesian
marketing-mix models (class `MMM` and its subclasses `MMMChannelsStraight`,
`MMMChannelsStraightConfounder`, `MMMFbGoogleMetrics`).

Columns are lists of rationals; a table is an association list from column
name to column.  `median` models `pandas.Series.median` (sort, then middle
element, or mean of the two middle elements for even length; the empty column
gives 0 here where pandas gives NaN — the claims only compare medians, and a
NaN comparison in Python is false just as the 0-comparisons here are).
Model graphs are embedded symbolically: the declared node names as lists of
strings and the expected-value node as an expression tree with an evaluator.
-/

namespace Mongine

/-- Insert a rational into a sorted list, keeping it sorted. -/
def insertSorted (x : ℚ) : List ℚ → List ℚ
  | [] => [x]
  | y :: ys => if x ≤ y then x :: y :: ys else y :: insertSorted x ys

/-- Sort a list of rationals ascending (insertion sort). -/
def sortList : List ℚ → List ℚ
  | [] => []
  | x :: xs => insertSorted x (sortList xs)

/-- Median of a column, as `pandas.Series.median` computes it: sort, take the
middle element when the length is odd, the mean of the two middle elements
when even.  The empty column yields 0 (pandas: NaN). -/
def median (xs : List ℚ) : ℚ :=
  if (sortList xs).length % 2 = 1 then (sortList xs).getD ((sortList xs).length / 2) 0
  else ((sortList xs).getD ((sortList xs).length / 2 - 1) 0 +
        (sortList xs).getD ((sortList xs).length / 2) 0) / 2

/-- A data frame: an association list from column name to column. -/
structure Table where
  cols : List (String × List ℚ)

/-- Look a column up by name (pandas `df[name]`; a missing column gives `[]`). -/
def lookupCol : List (String × List ℚ) → String → List ℚ
  | [], _ => []
  | p :: ps, name => if p.1 = name then p.2 else lookupCol ps name

/-- Replace a column by name, appending it if absent (pandas `df[name] = v`). -/
def setCol : List (String × List ℚ) → String → List ℚ → List (String × List ℚ)
  | [], name, v => [(name, v)]
  | p :: ps, name, v => if p.1 = name then (name, v) :: ps else p :: setCol ps name v

def Table.get (t : Table) (name : String) : List ℚ :=
  lookupCol t.cols name

def Table.set (t : Table) (name : String) (v : List ℚ) : Table :=
  ⟨setCol t.cols name v⟩

/-- The sales column name: `MMM.__init__` sets `self.salesname = 'sales'`. -/
def salesname : String := "sales"

/-- The channel-scale loop of `MMM.set_scaling`: starting from
`self.channelscale = 0`, for each channel, if the channel's median in the raw
data exceeds the running value, replace it. -/
def computeChannelScale (data_raw : Table) (channelnames : List String) : ℚ :=
  channelnames.foldl
    (fun acc ch => if median (data_raw.get ch) > acc then median (data_raw.get ch) else acc) 0

/-- The second loop of `MMM.set_scaling`: divide each channel column of the
copied table by the channel scale. -/
def scaleChannels (t : Table) (channelnames : List String) (cs : ℚ) : Table :=
  channelnames.foldl (fun acc ch => acc.set ch ((acc.get ch).map (fun x => x / cs))) t

/-- The state `MMM.set_scaling` leaves behind: `self.channelscale`,
`self.salesscale` and `self.data_scaled`. -/
structure ScalingResult where
  channelscale : ℚ
  salesscale : ℚ
  data_scaled : Table

/-- `MMM.set_scaling`: copy the raw table; compute the channel scale as the
running maximum (from 0) of the channel medians of the raw data; divide the
channel columns by it; set the sales scale to the median of the sales column
of the resulting table; divide the sales column by the sales scale. -/
def set_scaling (data_raw : Table) (channelnames : List String) : ScalingResult :=
  let cs := computeChannelScale data_raw channelnames
  let afterChannels := scaleChannels data_raw channelnames cs
  let ss := median (afterChannels.get salesname)
  { channelscale := cs
    salesscale := ss
    data_scaled := afterChannels.set salesname ((afterChannels.get salesname).map (fun x => x / ss)) }

/-- A division with zero divisor is performed during `set_scaling`: the
per-channel division divides by the channel scale whenever the channel list is
non-empty, and the sales division always divides by the sales scale. -/
def scalingDividesByZero (data_raw : Table) (channelnames : List String) : Prop :=
  (channelnames ≠ [] ∧ computeChannelScale data_raw channelnames = 0) ∨
    median ((scaleChannels data_raw channelnames
      (computeChannelScale data_raw channelnames)).get salesname) = 0

instance (data_raw : Table) (channelnames : List String) :
    Decidable (scalingDividesByZero data_raw channelnames) := by
  unfold scalingDividesByZero
  infer_instance

/-- The concrete table of the spec scenario: 10 days, channels `spend_a` and
`spend_b` each constant 100 (median 100), sales constant 500 (median 500). -/
def tableC1 : Table :=
  ⟨[("date", (List.range 10).map (fun i => (i : ℚ))),
    ("spend_a", List.replicate 10 100),
    ("spend_b", List.replicate 10 100),
    ("sales", List.replicate 10 500)]⟩

def channelsC1 : List String := ["spend_a", "spend_b"]

/-- A table whose single channel has negative median, for the zero-scale path. -/
def tableAllNeg : Table :=
  ⟨[("spend_a", [-1, -2, -3]),
    ("sales", [7, 7, 7])]⟩

/-- Configuration flags of `MMMChannelsStraight.__init__`. -/
structure StraightConfig where
  allowIntercept : Bool
  allowAdstockAndSat : Bool

/-- `MMMChannelsStraight.__init__` sets `self.fittedparmnames = ['beta', 'sigma']`. -/
def straightInitParmnames : List String := ["beta", "sigma"]

/-- The intercept branch of `MMMChannelsStraight.define_model`: when the
intercept is allowed, append `'intercept'` to the fitted-parameter-name list
unless it is already present. -/
def interceptStep (allowIntercept : Bool) (fitted : List String) : List String :=
  if allowIntercept then
    (if "intercept" ∈ fitted then fitted else fitted ++ ["intercept"])
  else fitted

/-- The effect of one run of `MMMChannelsStraight.define_model` on
`self.fittedparmnames`: the intercept branch, then, if adstock/saturation is
allowed, append `'alpha'` and then `'lam'` unconditionally. -/
def straightDefineModelParms (cfg : StraightConfig) (fitted : List String) : List String :=
  if cfg.allowAdstockAndSat then
    ((interceptStep cfg.allowIntercept fitted) ++ ["alpha"]) ++ ["lam"]
  else
    interceptStep cfg.allowIntercept fitted

/-- `self.fittedparmnames` after `n` calls to
`MMMChannelsStraight.define_model`, starting from the constructor's list. -/
def straightParmsAfter (cfg : StraightConfig) : Nat → List String
  | 0 => straightInitParmnames
  | n + 1 => straightDefineModelParms cfg (straightParmsAfter cfg n)

/-- The names declared in the model graph built by
`MMMChannelsStraight.define_model`, in source order: the `spend` data node,
the optional `intercept` prior, the `sigma` and `beta` priors, the optional
adstock/saturation nodes (`alpha`, `lam`, `channel_adstock`,
`channel_adstock_saturated`), the deterministic `mu_channels` and `mu_y`,
and the likelihood `y`. -/
def straightDeclaredNames (cfg : StraightConfig) : List String :=
  ["spend"]
  ++ (if cfg.allowIntercept then ["intercept"] else [])
  ++ ["sigma", "beta"]
  ++ (if cfg.allowAdstockAndSat then
        ["alpha", "lam", "channel_adstock", "channel_adstock_saturated", "mu_channels"]
      else ["mu_channels"])
  ++ ["mu_y", "y"]

/-- The list `MMMChannelsStraightConfounder.define_model` assigns to
`self.fittedparmnames` (an assignment, not an append, so any previous value
is discarded). -/
def confounderDefineModelParms (prev : List String) : List String :=
  ["beta_fb", "beta_google", "beta_fb_google", "spend_google_0", "sigma",
   "intercept", "sigma_google"]

/-- `MMMFbGoogleMetrics.__init__` sets
`self.fittedparmnames = ['beta_fb', 'beta_google', 'intercept', 'sigma']`. -/
def metricsFittedparmnames : List String := ["beta_fb", "beta_google", "intercept", "sigma"]

/-- Symbolic expressions over the model graph: named random variables
(priors or observed random variables), named data nodes, sums and products. -/
inductive MExpr where
  | rv : String → MExpr
  | dataNode : String → MExpr
  | add : MExpr → MExpr → MExpr
  | mul : MExpr → MExpr → MExpr

/-- Evaluate an expression in an environment giving each named node a value
(one time period, one posterior draw). -/
def MExpr.eval (env : String → ℚ) : MExpr → ℚ
  | .rv n => env n
  | .dataNode n => env n
  | .add a b => a.eval env + b.eval env
  | .mul a b => a.eval env * b.eval env

/-- `mu_fb = pm.Deterministic('mu_fb', beta_fb*spend_fb, ...)`. -/
def confounder_mu_fb : MExpr := .mul (.rv "beta_fb") (.dataNode "spend_fb")

/-- `mu_google = pm.Deterministic('mu_google', beta_google*spend_google, ...)`;
`spend_google` is the observed random variable modelling Google spend. -/
def confounder_mu_google : MExpr := .mul (.rv "beta_google") (.rv "spend_google")

/-- `mu_channels = pm.Deterministic('mu_channels', intercept + mu_fb + mu_google, ...)`
(Python adds left to right). -/
def confounder_mu_channels : MExpr :=
  .add (.add (.rv "intercept") confounder_mu_fb) confounder_mu_google

/-- `mu_y = pm.Deterministic('mu_y', intercept + mu_channels, ...)`. -/
def confounder_mu_y : MExpr := .add (.rv "intercept") confounder_mu_channels

/-- The two scale factors stored on an `MMM` instance. -/
structure Scales where
  salesscale : ℚ
  channelscale : ℚ

/-- `MMMChannelsStraight.get_back_scaled_idata`, pointwise on one posterior
draw: multiply `intercept` by the sales scale when the intercept is allowed,
`sigma` by the channel scale, and `beta` by the sales scale divided by the
channel scale; every other variable is copied unchanged. -/
def straightBackScale (allowIntercept : Bool) (s : Scales) (post : String → ℚ) :
    String → ℚ := fun name =>
  if name = "intercept" then (if allowIntercept then post name * s.salesscale else post name)
  else if name = "sigma" then post name * s.channelscale
  else if name = "beta" then post name * s.salesscale / s.channelscale
  else post name

/-- `MMMChannelsStraightConfounder.get_back_scaled_idata`, pointwise:
`intercept` times the sales scale, `sigma` and `sigma_google` and
`spend_google_0` times the channel scale, `beta_google` and `beta_fb` times
the sales scale divided by the channel scale. -/
def confounderBackScale (s : Scales) (post : String → ℚ) : String → ℚ := fun name =>
  if name = "intercept" then post name * s.salesscale
  else if name = "sigma" then post name * s.channelscale
  else if name = "beta_google" then post name * s.salesscale / s.channelscale
  else if name = "beta_fb" then post name * s.salesscale / s.channelscale
  else if name = "spend_google_0" then post name * s.channelscale
  else if name = "sigma_google" then post name * s.channelscale
  else post name

/-- `MMMFbGoogleMetrics.get_back_scaled_idata`, pointwise: `intercept` times
the sales scale, `sigma` times the channel scale, `beta_fb` and `beta_google`
times the sales scale alone. -/
def metricsBackScale (s : Scales) (post : String → ℚ) : String → ℚ := fun name =>
  if name = "intercept" then post name * s.salesscale
  else if name = "sigma" then post name * s.channelscale
  else if name = "beta_fb" then post name * s.salesscale
  else if name = "beta_google" then post name * s.salesscale
  else post name

/-- The multiplicative factor `straightBackScale` applies to each name. -/
def straightScaleFactor (allowIntercept : Bool) (s : Scales) (name : String) : ℚ :=
  if name = "intercept" then (if allowIntercept then s.salesscale else 1)
  else if name = "sigma" then s.channelscale
  else if name = "beta" then s.salesscale / s.channelscale
  else 1

/-- The multiplicative factor `confounderBackScale` applies to each name. -/
def confounderScaleFactor (s : Scales) (name : String) : ℚ :=
  if name = "intercept" then s.salesscale
  else if name = "sigma" then s.channelscale
  else if name = "beta_google" then s.salesscale / s.channelscale
  else if name = "beta_fb" then s.salesscale / s.channelscale
  else if name = "spend_google_0" then s.channelscale
  else if name = "sigma_google" then s.channelscale
  else 1

/-- The multiplicative factor `metricsBackScale` applies to each name. -/
def metricsScaleFactor (s : Scales) (name : String) : ℚ :=
  if name = "intercept" then s.salesscale
  else if name = "sigma" then s.channelscale
  else if name = "beta_fb" then s.salesscale
  else if name = "beta_google" then s.salesscale
  else 1

/-- The error raised by the abstract methods of the base class. -/
inductive MMMError where
  | notImplementedError : String → MMMError

/-- `MMM.define_model`: unconditionally raises `NotImplementedError`. -/
def MMM_define_model : Except MMMError Unit :=
  Except.error (MMMError.notImplementedError
    "Subclass must implement abstract method 'define_model()")

/-- `MMM.get_back_scaled_idata`: unconditionally raises `NotImplementedError`. -/
def MMM_get_back_scaled_idata : Except MMMError Unit :=
  Except.error (MMMError.notImplementedError
    "Subclass must implement abstract method 'get_back_scaled_idata()")

end Mongine

namespace Mongine

theorem lookupCol_setCol_self (cols : List (String × List ℚ)) (name : String) (v : List ℚ) :
    lookupCol (setCol cols name v) name = v := by
  induction cols with
  | nil => simp [setCol, lookupCol]
  | cons p ps ih =>
    by_cases h : p.1 = name
    · simp [setCol, lookupCol, h]
    · simp [setCol, lookupCol, h, ih]

theorem lookupCol_setCol_ne (cols : List (String × List ℚ)) (name other : String)
    (v : List ℚ) (h : name ≠ other) :
    lookupCol (setCol cols name v) other = lookupCol cols other := by
  induction cols with
  | nil => simp [setCol, lookupCol, h]
  | cons p ps ih =>
    by_cases hp : p.1 = name
    · simp [setCol, lookupCol, hp, h]
    · simp [setCol, lookupCol, hp, ih]

theorem Table.get_set_self (t : Table) (name : String) (v : List ℚ) :
    (t.set name v).get name = v :=
  lookupCol_setCol_self t.cols name v

theorem Table.get_set_ne (t : Table) (name other : String) (v : List ℚ) (h : name ≠ other) :
    (t.set name v).get other = t.get other :=
  lookupCol_setCol_ne t.cols name other v h

theorem insertSorted_map_div (c : ℚ) (hc : 0 < c) (x : ℚ) (l : List ℚ) :
    insertSorted (x / c) (l.map (fun y => y / c)) = (insertSorted x l).map (fun y => y / c) := by
  induction l with
  | nil => simp [insertSorted]
  | cons y ys ih =>
    simp only [List.map_cons, insertSorted]
    by_cases h : x ≤ y
    · rw [if_pos ((div_le_div_iff_of_pos_right hc).mpr h), if_pos h]
      simp
    · rw [if_neg (fun hle => h ((div_le_div_iff_of_pos_right hc).mp hle)), if_neg h]
      simp [ih]

theorem sortList_map_div (c : ℚ) (hc : 0 < c) (l : List ℚ) :
    sortList (l.map (fun y => y / c)) = (sortList l).map (fun y => y / c) := by
  induction l with
  | nil => rfl
  | cons x xs ih =>
    simp only [List.map_cons, sortList, ih]
    exact insertSorted_map_div c hc x (sortList xs)

theorem getD_map_div (c : ℚ) (l : List ℚ) (i : Nat) (h : i < l.length) :
    (l.map (fun y => y / c)).getD i 0 = l.getD i 0 / c := by
  induction l generalizing i with
  | nil => simp at h
  | cons x xs ih =>
    cases i with
    | zero => simp
    | succ j =>
      simp only [List.map_cons, List.getD_cons_succ]
      exact ih j (by simpa using Nat.lt_of_succ_lt_succ h)

theorem median_map_div (c : ℚ) (hc : 0 < c) (l : List ℚ) :
    median (l.map (fun y => y / c)) = median l / c := by
  unfold median
  rw [sortList_map_div c hc, List.length_map]
  rcases Nat.eq_zero_or_pos (sortList l).length with h0 | hpos
  · rw [List.length_eq_zero.mp h0]
    simp [List.getD]
  · by_cases hodd : (sortList l).length % 2 = 1
    · rw [if_pos hodd, if_pos hodd, getD_map_div c _ _ (Nat.div_lt_self hpos (by norm_num))]
    · rw [if_neg hodd, if_neg hodd,
        getD_map_div c _ _ (Nat.lt_of_le_of_lt (Nat.sub_le _ _)
          (Nat.div_lt_self hpos (by norm_num))),
        getD_map_div c _ _ (Nat.div_lt_self hpos (by norm_num))]
      ring

theorem scaleChannels_cons (t : Table) (ch : String) (chs : List String) (c : ℚ) :
    scaleChannels t (ch :: chs) c =
      scaleChannels (t.set ch ((t.get ch).map (fun x => x / c))) chs c := by
  simp [scaleChannels]

/-- Channel scaling by a positive divisor preserves non-zeroness of every
column median. -/
theorem median_get_scaleChannels_ne_zero (chs : List String) (data : Table) (c : ℚ)
    (hc : 0 < c) (name : String) (h : median (data.get name) ≠ 0) :
    median ((scaleChannels data chs c).get name) ≠ 0 := by
  induction chs generalizing data with
  | nil => simpa [scaleChannels] using h
  | cons ch chs ih =>
    rw [scaleChannels_cons]
    apply ih
    by_cases hch : ch = name
    · subst hch
      rw [Table.get_set_self, median_map_div c hc]
      exact div_ne_zero h (ne_of_gt hc)
    · rwa [Table.get_set_ne _ _ _ _ hch]

/-- The running-maximum loop never decreases below its accumulator. -/
theorem le_channelScaleFold (data : Table) (chs : List String) (acc : ℚ) :
    acc ≤ chs.foldl
      (fun a ch => if median (data.get ch) > a then median (data.get ch) else a) acc := by
  induction chs generalizing acc with
  | nil => simp
  | cons ch chs ih =>
    refine le_trans ?_ (ih _)
    by_cases h : median (data.get ch) > acc
    · simp [h, le_of_lt h]
    · simp [h]

/-- Every listed channel's median is bounded by the loop's result. -/
theorem median_le_channelScaleFold (data : Table) (chs : List String) (ch : String) :
    ∀ acc : ℚ, ch ∈ chs →
      median (data.get ch) ≤ chs.foldl
        (fun a c => if median (data.get c) > a then median (data.get c) else a) acc := by
  induction chs with
  | nil => intro acc hch; simp at hch
  | cons ch0 chs ih =>
    intro acc hch
    rcases List.mem_cons.mp hch with rfl | hmem
    · refine le_trans ?_ (le_channelScaleFold data chs _)
      by_cases h : median (data.get ch) > acc
      · simp [h]
      · simp [h, le_of_not_lt h]
    · exact ih _ hmem

theorem computeChannelScale_pos (data : Table) (chs : List String)
    (h : ∃ ch ∈ chs, 0 < median (data.get ch)) :
    0 < computeChannelScale data chs := by
  obtain ⟨ch, hch, hpos⟩ := h
  exact lt_of_lt_of_le hpos (median_le_channelScaleFold data chs ch 0 hch)

theorem computeChannelScale_eq_zero (data : Table) (chs : List String)
    (h : ∀ ch ∈ chs, median (data.get ch) ≤ 0) :
    computeChannelScale data chs = 0 := by
  unfold computeChannelScale
  induction chs with
  | nil => rfl
  | cons ch chs ih =>
    have hch : ¬ median (data.get ch) > 0 := not_lt.mpr (h ch (by simp))
    simp only [List.foldl_cons, hch, if_false]
    exact ih (fun c hc => h c (List.mem_cons_of_mem _ hc))

theorem computeChannelScale_eq_max_fold (data : Table) (chs : List String) :
    computeChannelScale data chs = (chs.map (fun ch => median (data.get ch))).foldl max 0 := by
  unfold computeChannelScale
  suffices h : ∀ acc : ℚ, chs.foldl
      (fun a ch => if median (data.get ch) > a then median (data.get ch) else a) acc =
      (chs.map (fun ch => median (data.get ch))).foldl max acc from h 0
  induction chs with
  | nil => intro acc; rfl
  | cons ch chs ih =>
    intro acc
    simp only [List.foldl_cons, List.map_cons]
    rw [ih]
    congr 1
    by_cases h : median (data.get ch) > acc
    · simp [h, max_eq_right (le_of_lt h)]
    · simp [h, max_eq_left (le_of_not_lt h)]

end Mongine

namespace Mongine

theorem count_interceptStep (b : Bool) (fitted : List String) (q : String)
    (hq : q ≠ "intercept") :
    (interceptStep b fitted).count q = fitted.count q := by
  unfold interceptStep
  split_ifs <;> simp [List.count_append, List.count_singleton, List.count_cons, hq]

theorem mem_interceptStep (b : Bool) (fitted : List String) (p : String)
    (hp : p ∈ interceptStep b fitted) : p ∈ fitted ∨ p = "intercept" := by
  unfold interceptStep at hp
  split_ifs at hp
  · exact Or.inl hp
  · rcases List.mem_append.mp hp with hp | hp
    · exact Or.inl hp
    · simp at hp
      exact Or.inr hp
  · exact Or.inl hp

theorem interceptStep_true_count_of_one (fitted : List String)
    (h : fitted.count "intercept" = 1) :
    (interceptStep true fitted).count "intercept" = 1 := by
  have hmem : "intercept" ∈ fitted := List.count_pos_iff.mp (by omega)
  simp [interceptStep, hmem, h]

theorem interceptStep_true_count_of_not_mem (fitted : List String)
    (h : "intercept" ∉ fitted) :
    (interceptStep true fitted).count "intercept" = 1 := by
  have hz : fitted.count "intercept" = 0 := List.count_eq_zero.mpr h
  simp [interceptStep, h, List.count_append, hz]

theorem straightStep_count_intercept (cfg : StraightConfig) (h : cfg.allowIntercept = true)
    (fitted : List String)
    (hc : fitted.count "intercept" = 1 ∨ "intercept" ∉ fitted) :
    (straightDefineModelParms cfg fitted).count "intercept" = 1 := by
  have hstep : (interceptStep cfg.allowIntercept fitted).count "intercept" = 1 := by
    rw [h]
    rcases hc with hc | hc
    · exact interceptStep_true_count_of_one fitted hc
    · exact interceptStep_true_count_of_not_mem fitted hc
  unfold straightDefineModelParms
  split_ifs <;> simp [List.count_append, hstep]

theorem straightParms_mem (cfg : StraightConfig) (p : String) :
    ∀ n : Nat, p ∈ straightParmsAfter cfg n →
      p ∈ (["beta", "sigma", "intercept", "alpha", "lam"] : List String) := by
  intro n
  induction n with
  | zero =>
    intro hp
    simp only [straightParmsAfter, straightInitParmnames] at hp
    simp at hp
    rcases hp with rfl | rfl <;> decide
  | succ n ih =>
    intro hp
    simp only [straightParmsAfter] at hp
    unfold straightDefineModelParms at hp
    by_cases hA : cfg.allowAdstockAndSat
    · rw [if_pos hA] at hp
      rcases List.mem_append.mp hp with hp | hp
      · rcases List.mem_append.mp hp with hp | hp
        · rcases mem_interceptStep _ _ _ hp with hp | hp
          · exact ih hp
          · simp [hp]
        · simp at hp
          simp [hp]
      · simp at hp
        simp [hp]
    · rw [if_neg hA] at hp
      rcases mem_interceptStep _ _ _ hp with hp | hp
      · exact ih hp
      · simp [hp]

end Mongine

namespace Mongine

/-- C1 (amended): `set_scaling` computes the channel scale first, as the
running maximum (starting from 0) of the channel medians of the raw data,
then divides the channel columns by it, and only then computes the sales
scale as the median of the sales column of the channel-scaled table; since
the sales column is not a channel column it is untouched by channel scaling,
so on the 10-day table with two channels of median 100 and sales of median
500 the channel scale is 100 and the sales scale is 500, not 5. -/
theorem C1_two_step_scaling :
    (∀ (data : Table) (chs : List String),
      (set_scaling data chs).channelscale =
        (chs.map (fun ch => median (data.get ch))).foldl max 0 ∧
      (set_scaling data chs).salesscale =
        median ((scaleChannels data chs (set_scaling data chs).channelscale).get salesname)) ∧
    (set_scaling tableC1 channelsC1).channelscale = 100 ∧
    (set_scaling tableC1 channelsC1).salesscale = 500 := by
  refine ⟨fun data chs => ⟨computeChannelScale_eq_max_fold data chs, rfl⟩, ?_, ?_⟩
  · norm_num [set_scaling, computeChannelScale, scaleChannels, tableC1, channelsC1,
      Table.get, Table.set, lookupCol, setCol, median, sortList, insertSorted,
      salesname, List.replicate]
  · norm_num [set_scaling, computeChannelScale, scaleChannels, tableC1, channelsC1,
      Table.get, Table.set, lookupCol, setCol, median, sortList, insertSorted,
      salesname, List.replicate]

/-- C1 counterexample: on the spec scenario table the sales scale is not 5.0
(the code never divides the sales column by the channel scale before taking
its median, so the sales scale is 500). -/
theorem C1_salesscale_counterexample :
    ¬ (set_scaling tableC1 channelsC1).salesscale = 5 := by
  norm_num [set_scaling, computeChannelScale, scaleChannels, tableC1, channelsC1,
    Table.get, Table.set, lookupCol, setCol, median, sortList, insertSorted,
    salesname, List.replicate]

/-- C2: in the graph built by `MMMChannelsStraightConfounder.define_model`,
the expected-sales node `mu_y = intercept + mu_channels` where
`mu_channels = intercept + mu_fb + mu_google`, so the intercept contributes
TWICE, contradicting the claim (and the spec) that it contributes exactly
once: for every valuation the node evaluates to the Facebook contribution
plus the Google contribution plus two times the intercept. -/
theorem C2_confounder_mu_y_double_intercept :
    ∀ env : String → ℚ, confounder_mu_y.eval env =
      env "beta_fb" * env "spend_fb" + env "beta_google" * env "spend_google"
        + 2 * env "intercept" := by
  intro env
  simp only [confounder_mu_y, confounder_mu_channels, confounder_mu_fb,
    confounder_mu_google, MExpr.eval]
  ring

/-- C3 counterexample: the list `MMMChannelsStraightConfounder.define_model`
assigns to `self.fittedparmnames` does not contain nine distinct names. -/
theorem C3_not_nine_parameters_counterexample :
    ¬ ((confounderDefineModelParms ["beta", "sigma"]).dedup.length = 9) := by
  decide

/-- C3 (amended): after `MMMChannelsStraightConfounder.define_model` runs,
the fitted-parameter-name list contains exactly SEVEN distinct parameter
names (`beta_fb`, `beta_google`, `beta_fb_google`, `spend_google_0`, `sigma`,
`intercept`, `sigma_google`), whatever value the list held before. -/
theorem C3_seven_parameters :
    ∀ prev : List String, (confounderDefineModelParms prev).length = 7 ∧
      (confounderDefineModelParms prev).Nodup := by
  intro prev
  refine ⟨rfl, ?_⟩
  show (["beta_fb", "beta_google", "beta_fb_google", "spend_google_0", "sigma",
    "intercept", "sigma_google"] : List String).Nodup
  decide

/-- C4 counterexample: with adstock/saturation enabled, after two calls to
`define_model` the fitted-parameter-name list holds `'alpha'` twice, so it
does not appear exactly once per channel (one channel, claim demands once). -/
theorem C4_alpha_counterexample :
    ¬ ((straightParmsAfter ⟨false, true⟩ 2).count "alpha" = 1) := by
  decide

/-- C4 (amended): with adstock/saturation enabled, each call to
`MMMChannelsStraight.define_model` appends `'alpha'` and `'lam'` once
unconditionally, so after `n` calls each appears exactly `n` times in the
fitted-parameter-name list, independently of the number of channels; with
adstock/saturation disabled neither name ever appears. -/
theorem C4_adstock_parms_per_call :
    (∀ (cfg : StraightConfig) (n : Nat), cfg.allowAdstockAndSat = true →
      (straightParmsAfter cfg n).count "alpha" = n ∧
      (straightParmsAfter cfg n).count "lam" = n) ∧
    (∀ (cfg : StraightConfig) (n : Nat), cfg.allowAdstockAndSat = false →
      ("alpha" ∉ straightParmsAfter cfg n ∧ "lam" ∉ straightParmsAfter cfg n)) := by
  constructor
  · intro cfg n h
    induction n with
    | zero => simp [straightParmsAfter, straightInitParmnames]
    | succ n ih =>
      simp only [straightParmsAfter, straightDefineModelParms, h, if_true]
      constructor <;>
        rw [List.count_append, List.count_append,
          count_interceptStep _ _ _ (by decide)] <;>
        simp [ih.1, ih.2]
  · intro cfg n h
    induction n with
    | zero => simp [straightParmsAfter, straightInitParmnames]
    | succ n ih =>
      simp only [straightParmsAfter, straightDefineModelParms, h,
        Bool.false_eq_true, if_false]
      constructor <;> intro hmem <;>
        rcases mem_interceptStep _ _ _ hmem with hp | hp <;>
        first
          | exact ih.1 hp
          | exact ih.2 hp
          | simp at hp

/-- C4 witness: with adstock enabled, after one call `'alpha'` and `'lam'`
each appear once; with it disabled, neither appears after one call. -/
theorem C4_adstock_parms_per_call_witness :
    ((straightParmsAfter ⟨false, true⟩ 1).count "alpha" = 1 ∧
     (straightParmsAfter ⟨false, true⟩ 1).count "lam" = 1) ∧
    ("alpha" ∉ straightParmsAfter ⟨false, false⟩ 1 ∧
     "lam" ∉ straightParmsAfter ⟨false, false⟩ 1) :=
  ⟨C4_adstock_parms_per_call.1 ⟨false, true⟩ 1 rfl,
   C4_adstock_parms_per_call.2 ⟨false, false⟩ 1 rfl⟩

/-- C5: with the intercept flag disabled the model graph of
`MMMChannelsStraight.define_model` declares no node named `'intercept'`;
with it enabled, after any positive number of calls to `define_model` the
fitted-parameter-name list contains `'intercept'` exactly once (the code
guards the append with a membership test). -/
theorem C5_intercept_flag :
    (∀ cfg : StraightConfig, cfg.allowIntercept = false →
      "intercept" ∉ straightDeclaredNames cfg) ∧
    (∀ (cfg : StraightConfig) (n : Nat), cfg.allowIntercept = true → 1 ≤ n →
      (straightParmsAfter cfg n).count "intercept" = 1) := by
  constructor
  · intro cfg h
    rcases cfg with ⟨ai, as⟩
    simp only at h
    subst h
    cases as <;> decide
  · intro cfg n h hn
    induction n with
    | zero => omega
    | succ n ih =>
      rcases Nat.eq_zero_or_pos n with rfl | hpos
      · have h0 : "intercept" ∉ straightParmsAfter cfg 0 := by
          simp [straightParmsAfter, straightInitParmnames]
        exact straightStep_count_intercept cfg h _ (Or.inr h0)
      · exact straightStep_count_intercept cfg h _ (Or.inl (ih hpos))

/-- C5 witness: at concrete configurations, the intercept-disabled graph has
no `'intercept'` node and the intercept-enabled list holds it once after one
call. -/
theorem C5_intercept_flag_witness :
    "intercept" ∉ straightDeclaredNames ⟨false, false⟩ ∧
    (straightParmsAfter ⟨true, false⟩ 1).count "intercept" = 1 :=
  ⟨C5_intercept_flag.1 ⟨false, false⟩ rfl,
   C5_intercept_flag.2 ⟨true, false⟩ 1 rfl (by norm_num)⟩

/-- C6: the confounder back-scaling multiplies `beta_fb` and `beta_google`
by the sales scale divided by the channel scale, while the metrics-driven
back-scaling multiplies its `beta_fb` and `beta_google` by the sales scale
alone. -/
theorem C6_beta_backscale_variants :
    ∀ (s : Scales) (post : String → ℚ),
      confounderBackScale s post "beta_fb" = post "beta_fb" * s.salesscale / s.channelscale ∧
      confounderBackScale s post "beta_google" =
        post "beta_google" * s.salesscale / s.channelscale ∧
      metricsBackScale s post "beta_fb" = post "beta_fb" * s.salesscale ∧
      metricsBackScale s post "beta_google" = post "beta_google" * s.salesscale := by
  intro s post
  refine ⟨?_, ?_, ?_, ?_⟩ <;> simp [confounderBackScale, metricsBackScale]

/-- C7: `MMMChannelsStraight.get_back_scaled_idata` with the intercept
enabled multiplies the intercept by the sales scale, `sigma` by the channel
scale, and the coefficient vector `beta` by the sales scale divided by the
channel scale. -/
theorem C7_straight_backscale_factors :
    ∀ (s : Scales) (post : String → ℚ),
      straightBackScale true s post "intercept" = post "intercept" * s.salesscale ∧
      straightBackScale true s post "sigma" = post "sigma" * s.channelscale ∧
      straightBackScale true s post "beta" = post "beta" * s.salesscale / s.channelscale := by
  intro s post
  refine ⟨?_, ?_, ?_⟩ <;> simp [straightBackScale]

end Mongine

namespace Mongine

/-- C8: with nonzero scale factors, multiplying the back-scaled value of each
declared fitted parameter by the inverse of the scale factor that
back-scaling applied to it recovers the original fitted-unit value, for the
straight variant (any flags, after any number of `define_model` calls), the
confounder variant and the metrics variant. -/
theorem C8_backscale_roundtrip (cfg : StraightConfig) (n : Nat) (s : Scales)
    (post : String → ℚ) (hs : s.salesscale ≠ 0) (hc : s.channelscale ≠ 0) :
    (∀ p ∈ straightParmsAfter cfg n,
      straightBackScale cfg.allowIntercept s post p *
        (straightScaleFactor cfg.allowIntercept s p)⁻¹ = post p) ∧
    (∀ p ∈ confounderDefineModelParms ["beta", "sigma"],
      confounderBackScale s post p * (confounderScaleFactor s p)⁻¹ = post p) ∧
    (∀ p ∈ metricsFittedparmnames,
      metricsBackScale s post p * (metricsScaleFactor s p)⁻¹ = post p) := by
  have hdiv : s.salesscale / s.channelscale ≠ 0 := div_ne_zero hs hc
  refine ⟨?_, ?_, ?_⟩
  · intro p hp
    have hp5 := straightParms_mem cfg p n hp
    simp only [straightBackScale, straightScaleFactor]
    simp at hp5
    rcases hp5 with rfl | rfl | rfl | rfl | rfl <;>
      cases hai : cfg.allowIntercept <;>
      simp <;>
      field_simp
  · intro p hp
    simp only [confounderDefineModelParms] at hp
    simp only [confounderBackScale, confounderScaleFactor]
    simp at hp
    rcases hp with rfl | rfl | rfl | rfl | rfl | rfl | rfl <;>
      simp <;>
      field_simp
  · intro p hp
    simp only [metricsFittedparmnames] at hp
    simp only [metricsBackScale, metricsScaleFactor]
    simp at hp
    rcases hp with rfl | rfl | rfl | rfl <;>
      simp <;>
      field_simp

/-- C8 witness: a concrete round trip through back-scaling for the straight
variant's `beta` with sales scale 2 and channel scale 3. -/
theorem C8_backscale_roundtrip_witness :
    straightBackScale true ⟨2, 3⟩ (fun _ => 5) "beta" *
      (straightScaleFactor true ⟨2, 3⟩ "beta")⁻¹ = 5 := by
  have h := C8_backscale_roundtrip ⟨true, false⟩ 0 ⟨2, 3⟩ (fun _ => 5)
    (by norm_num) (by norm_num)
  exact h.1 "beta" (by decide)

/-- C9: calling `define_model` or `get_back_scaled_idata` on the base class
`MMM` always raises `NotImplementedError` with the source's message, and no
successful outcome is possible. -/
theorem C9_base_raises_not_implemented :
    (MMM_define_model = Except.error (MMMError.notImplementedError
        "Subclass must implement abstract method 'define_model()") ∧
      ∀ u : Unit, MMM_define_model ≠ Except.ok u) ∧
    (MMM_get_back_scaled_idata = Except.error (MMMError.notImplementedError
        "Subclass must implement abstract method 'get_back_scaled_idata()") ∧
      ∀ u : Unit, MMM_get_back_scaled_idata ≠ Except.ok u) := by
  refine ⟨⟨rfl, ?_⟩, ⟨rfl, ?_⟩⟩ <;> intro u h <;>
    simp [MMM_define_model, MMM_get_back_scaled_idata] at h

/-- C10: `set_scaling` divides unguarded, but when some named channel has a
strictly positive median and the sales column has a nonzero median, both
scales are nonzero and no division by zero happens; when the channel list is
non-empty and every channel median is non-positive, the channel scale stays
at its initial value 0 and the per-channel division divides by zero. -/
theorem C10_scaling_division_guard :
    (∀ (data : Table) (chs : List String),
      (∃ ch ∈ chs, 0 < median (data.get ch)) →
      median (data.get salesname) ≠ 0 →
      (set_scaling data chs).channelscale ≠ 0 ∧
      (set_scaling data chs).salesscale ≠ 0 ∧
      ¬ scalingDividesByZero data chs) ∧
    (∀ (data : Table) (chs : List String), chs ≠ [] →
      (∀ ch ∈ chs, median (data.get ch) ≤ 0) →
      (set_scaling data chs).channelscale = 0 ∧ scalingDividesByZero data chs) := by
  constructor
  · intro data chs hpos hsales
    have hc : 0 < computeChannelScale data chs := computeChannelScale_pos data chs hpos
    have hcs : (set_scaling data chs).channelscale = computeChannelScale data chs := rfl
    have hss : (set_scaling data chs).salesscale =
        median ((scaleChannels data chs (computeChannelScale data chs)).get salesname) := rfl
    have hssne : median ((scaleChannels data chs
        (computeChannelScale data chs)).get salesname) ≠ 0 :=
      median_get_scaleChannels_ne_zero chs data _ hc salesname hsales
    refine ⟨by rw [hcs]; exact ne_of_gt hc, by rw [hss]; exact hssne, ?_⟩
    intro hdz
    rcases hdz with ⟨_, hzero⟩ | hzero
    · exact absurd hzero (ne_of_gt hc)
    · exact hssne hzero
  · intro data chs hne hnonpos
    have hz : computeChannelScale data chs = 0 := computeChannelScale_eq_zero data chs hnonpos
    exact ⟨hz, Or.inl ⟨hne, hz⟩⟩

/-- C10 witness: on the spec scenario table both scales are nonzero and no
division by zero occurs; on a table whose only channel has negative median
the channel scale stays 0 and a zero division is performed. -/
theorem C10_scaling_division_guard_witness :
    ((set_scaling tableC1 channelsC1).channelscale ≠ 0 ∧
     (set_scaling tableC1 channelsC1).salesscale ≠ 0 ∧
     ¬ scalingDividesByZero tableC1 channelsC1) ∧
    ((set_scaling tableAllNeg ["spend_a"]).channelscale = 0 ∧
     scalingDividesByZero tableAllNeg ["spend_a"]) := by
  constructor
  · refine C10_scaling_division_guard.1 tableC1 channelsC1 ⟨"spend_a", ?_, ?_⟩ ?_
    · simp [channelsC1]
    · norm_num [tableC1, Table.get, lookupCol, median, sortList, insertSorted,
        List.replicate]
    · norm_num [tableC1, Table.get, lookupCol, median, sortList, insertSorted,
        salesname, List.replicate]
  · refine C10_scaling_division_guard.2 tableAllNeg ["spend_a"] (by simp) ?_
    intro ch hch
    simp at hch
    subst hch
    norm_num [tableAllNeg, Table.get, lookupCol, median, sortList, insertSorted]

end Mongine
